import Mathlib

/-!
Verification of the TreeView-Explorer repository.

The repository contains two TypeScript programs:

* `src/unnamed/part_002` — the standalone `InteractiveDirectoryTree`
  (class `DirectoryNode` with boolean `selected` / `partiallySelected`
  fields, `toggleSelect`, `setSelectionRecursive`,
  `updateParentSelectionStates`, `updateDirectorySelectionState`,
  `updateVisibleNodes`, `getSelectedPaths`, `saveSelection`,
  `isBinaryFile`, `scanDirectory`).  Namespace `TreeView` below.

* `src/src` — the blessed based UI (`DirectoryTree`, `DirectoryTreeNode`,
  `FileExport`).  Namespace `Llmcp` below.

Trees are embedded as rose trees; the mutable node graph of the source
becomes functional updates addressed by child-index positions
(`List Nat`), and mutation of a node found through the `nodeMap` by path
becomes an update at the corresponding position: in a consistent tree
(every child's `path` is its parent's `path` plus `'/'` plus its own
`name`, names free of `'/'`) the source's parent-chain walk by chopping
the path at the last `'/'` visits exactly the strict ancestors, deepest
first, which is the order in which the embeddings below recompute them.
-/

namespace TreeView

/-- Tri-state selection as the spec describes it: `full` (Full),
`part` (Partial), `none` (None). -/
inductive SelState where
  | none
  | part
  | full
deriving DecidableEq, Repr, BEq

/-- A node of the interactive directory tree: class `DirectoryNode`,
`src/unnamed/part_002` lines 817-839.  Fields in source order: `path`,
`name`, `isDirectory`, `selected`, `partiallySelected`, `expanded`, and
the ordered `children` list.  The cached `childrenCount` / `fileCount`
display counters are omitted: no claim reads them and no operation
modelled here branches on them. -/
inductive DNode where
  | mk (path name : String) (isDirectory selected partiallySelected expanded : Bool)
      (children : List DNode)

def DNode.path : DNode → String
  | .mk p _ _ _ _ _ _ => p

def DNode.name : DNode → String
  | .mk _ n _ _ _ _ _ => n

def DNode.isDirectory : DNode → Bool
  | .mk _ _ d _ _ _ _ => d

def DNode.selected : DNode → Bool
  | .mk _ _ _ s _ _ _ => s

def DNode.partiallySelected : DNode → Bool
  | .mk _ _ _ _ ps _ _ => ps

def DNode.expanded : DNode → Bool
  | .mk _ _ _ _ _ e _ => e

def DNode.children : DNode → List DNode
  | .mk _ _ _ _ _ _ cs => cs

/-- The selection state a node's two boolean flags encode, with the
priority the renderer uses (`renderVisibleNode`, lines 1099-1108:
`selected` is checked before `partiallySelected`). -/
def selStateOf (t : DNode) : SelState :=
  if t.selected then .full else if t.partiallySelected then .part else .none

/-- Recursion principle exposing only what the proofs need: a property
holds of a node once it holds of every child. -/
def DNode.recOnMem {motive : DNode → Prop}
    (h : ∀ p n d s ps e cs, (∀ c ∈ cs, motive c) → motive (.mk p n d s ps e cs)) :
    ∀ t, motive t
  | .mk p n d s ps e cs => h p n d s ps e cs (fun c hc => DNode.recOnMem h c)
decreasing_by
  have := List.sizeOf_lt_of_mem hc
  simp only [DNode.mk.sizeOf_spec]
  omega

mutual

/-- `setSelectionRecursive(node, selected)`, lines 1216-1225: set
`selected` and clear `partiallySelected` on the node, and recurse into
the children when the node is a directory. -/
def setSelectionRecursive (b : Bool) : DNode → DNode
  | .mk p n d _ _ e cs =>
    if d then .mk p n d b false e (setSelectionRecursiveList b cs)
    else .mk p n d b false e cs

/-- The `for (const child of node.children)` loop of
`setSelectionRecursive`. -/
def setSelectionRecursiveList (b : Bool) : List DNode → List DNode
  | [] => []
  | c :: cs => setSelectionRecursive b c :: setSelectionRecursiveList b cs

end

/-- `updateDirectorySelectionState(dir)`, lines 1243-1272: a non-directory
or a childless node is left alone; otherwise `selected` /
`partiallySelected` are recomputed from the direct children
(`allSelected` = every child has `selected`; `anySelected` = some child
has `selected` or `partiallySelected`). -/
def updateDirectorySelectionState : DNode → DNode
  | .mk p n d s ps e cs =>
    if !d || cs.isEmpty then .mk p n d s ps e cs
    else
      let allSelected := cs.all (fun c => c.selected)
      let anySelected := cs.any (fun c => c.selected || c.partiallySelected)
      if allSelected then .mk p n d true false e cs
      else if anySelected then .mk p n d false true e cs
      else .mk p n d false false e cs

/-- The part of `toggleSelect` (lines 1197-1213) that acts on the current
node itself: `newSelectionState = !currentNode.selected` is written to the
node (clearing `partiallySelected`) and, for a directory, stamped over the
whole subtree by `setSelectionRecursive`. -/
def toggleSelf (t : DNode) : DNode :=
  let b := !t.selected
  if t.isDirectory then setSelectionRecursive b t
  else
    match t with
    | .mk p n d _ _ e cs => .mk p n d b false e cs

/-- The node a child-index position addresses (`[]` is the tree's root,
`i :: rest` descends into child `i`). -/
def nodeAt : List Nat → DNode → Option DNode
  | [], t => some t
  | i :: rest, t =>
    match t.children[i]? with
    | some c => nodeAt rest c
    | none => none

/-- Apply `f` to the node at a position, leaving everything else in
place; an invalid position leaves the tree unchanged. -/
def updateAt (f : DNode → DNode) : List Nat → DNode → DNode
  | [], t => f t
  | i :: rest, t =>
    match t with
    | .mk p n d s ps e cs =>
      match cs[i]? with
      | some c => .mk p n d s ps e (cs.set i (updateAt f rest c))
      | none => .mk p n d s ps e cs

/-- `toggleSelect` (lines 1197-1213) at the node a position addresses,
followed by `updateParentSelectionStates(currentNode)` (lines 1228-1240):
the source finds each ancestor by chopping the node's path at its last
`'/'` and looking the result up in `nodeMap`, which in a consistent tree
yields exactly the strict ancestors, deepest first; here each ancestor
receives `updateDirectorySelectionState` as the recursion unwinds — the
same nodes in the same order.  The walk has no early exit, so every
strict ancestor up to the root is recomputed. -/
def toggleAt : List Nat → DNode → DNode
  | [], t => toggleSelf t
  | i :: rest, t =>
    match t with
    | .mk p n d s ps e cs =>
      match cs[i]? with
      | some c => updateDirectorySelectionState (.mk p n d s ps e (cs.set i (toggleAt rest c)))
      | none => .mk p n d s ps e cs

/-- A sequence of selection toggles, applied in order. -/
def applyToggles (t : DNode) (ps : List (List Nat)) : DNode :=
  ps.foldl (fun acc pos => toggleAt pos acc) t

/-- The selection state §3's invariant derives for a child list: `full`
iff every child is `full`, `none` iff every child is `none`, `part`
otherwise. -/
def claimState (cs : List DNode) : SelState :=
  if cs.all (fun c => selStateOf c == .full) then .full
  else if cs.all (fun c => selStateOf c == .none) then .none
  else .part

mutual

/-- The tri-state invariant of spec §3 / §8, as a decidable check over
the whole tree: every directory node with at least one child carries
exactly the selection state derived from its direct children. -/
def InvB : DNode → Bool
  | .mk p n d s ps e cs =>
    (if d && !cs.isEmpty then selStateOf (.mk p n d s ps e cs) == claimState cs else true)
      && InvBList cs

def InvBList : List DNode → Bool
  | [] => true
  | c :: cs => InvB c && InvBList cs

end

mutual

/-- Shape well-formedness the scanner guarantees (`scanDirectory` pushes
children only into directory nodes): a non-directory node has no
children. -/
def WFB : DNode → Bool
  | .mk _ _ d _ _ _ cs => (d || cs.isEmpty) && WFBList cs

def WFBList : List DNode → Bool
  | [] => true
  | c :: cs => WFB c && WFBList cs

end

mutual

/-- Depth-first pre-order flattening of a tree. -/
def preorder : DNode → List DNode
  | .mk p n d s ps e cs => .mk p n d s ps e cs :: preorderList cs

def preorderList : List DNode → List DNode
  | [] => []
  | c :: cs => preorder c ++ preorderList cs

end

mutual

/-- `getSelectedPaths()`, lines 1549-1568: collect, in pre-order, the
`path` of every node whose `selected` flag is set, recursing into the
children of directory nodes. -/
def getSelectedPaths : DNode → List String
  | .mk p _ d s _ _ cs =>
    (if s then [p] else []) ++ (if d then getSelectedPathsList cs else [])

def getSelectedPathsList : List DNode → List String
  | [] => []
  | c :: cs => getSelectedPaths c ++ getSelectedPathsList cs

end

/-- The text `saveSelection` (lines 1289-1302) writes:
`selected.join('\n')` over `getSelectedPaths()`. -/
def saveSelectionText (t : DNode) : String :=
  String.intercalate "\n" (getSelectedPaths t)

/-- The synthetic placeholder `updateVisibleNodes` pushes for an ignored,
expanded, still-childless directory (lines 990-1000):
`new DirectoryNode(join(node.path, "..."), "... (large directory, name)", true)`. -/
def mkPlaceholder (p n : String) : DNode :=
  .mk (p ++ "/...") ("... (large directory, " ++ n ++ ")") true false false false []

mutual

/-- The visible-node flattening of `updateVisibleNodes` (lines 970-1008).
The source runs an explicit stack, pushing children in reverse so they
pop in order, and every stack entry carries `isVisible = true`; that loop
produces exactly this pre-order: the node, then — when it is an expanded
directory — either the single placeholder (ignored name, no children yet)
or the flattening of its children. -/
def visibleList (ignore : List String) : DNode → List DNode
  | .mk p n d s ps e cs =>
    .mk p n d s ps e cs ::
      (if d && e then
        (if ignore.contains n && cs.isEmpty then [mkPlaceholder p n]
         else visibleListMany ignore cs)
       else [])

def visibleListMany (ignore : List String) : List DNode → List DNode
  | [] => []
  | c :: cs => visibleList ignore c ++ visibleListMany ignore cs

end

/-- `this.root.expanded = true` (line 974): the root is always treated as
expanded before flattening. -/
def setExpandedTrue : DNode → DNode
  | .mk p n d s ps _ cs => .mk p n d s ps true cs

/-- `updateVisibleNodes()`, lines 964-1031.  State in: the optional root,
the previous visible list and the previous cursor (a JS number, modelled
as `Int`).  State out: the new visible list and the new cursor.  The
previous cursor's node's path is remembered (when the cursor was in
bounds), the list is rebuilt, the cursor is relocated to that path via
`findIndex`, else clamped to `min(old, newLength - 1)`, and finally
forced into `[0, newLength)` (lines 1026-1030). -/
def updateVisibleNodes (ignore : List String) (root : Option DNode)
    (oldVisible : List DNode) (oldCursor : Int) : List DNode × Int :=
  let currentNodePath : Option String :=
    if 0 < oldVisible.length ∧ oldCursor < oldVisible.length then
      (oldVisible[oldCursor.toNat]?).map DNode.path
    else none
  let newVisible : List DNode :=
    match root with
    | some r => visibleList ignore (setExpandedTrue r)
    | none => []
  let cur1 : Int :=
    match currentNodePath with
    | some p =>
      match newVisible.findIdx? (fun nd => nd.path == p) with
      | some idx => (idx : Int)
      | Option.none => min oldCursor ((newVisible.length : Int) - 1)
    | Option.none => 0
  let cur2 : Int :=
    if cur1 < 0 ∨ newVisible.length = 0 then 0
    else if (newVisible.length : Int) ≤ cur1 then (newVisible.length : Int) - 1
    else cur1
  (newVisible, cur2)

/-- The fixed magic-byte signatures of `isBinaryFile` (lines 1656-1665):
JPEG, PNG, ZIP family, PDF, GIF, RIFF (`Buffer.from('RIFF')` =
`52 49 46 46`), GZIP, BMP. -/
def binarySignatures : List (List Nat) :=
  [[0xFF, 0xD8, 0xFF],
   [0x89, 0x50, 0x4E, 0x47],
   [0x50, 0x4B, 0x03, 0x04],
   [0x25, 0x50, 0x44, 0x46],
   [0x47, 0x49, 0x46, 0x38],
   [0x52, 0x49, 0x46, 0x46],
   [0x1F, 0x8B],
   [0x42, 0x4D]]

/-- `isBinaryFile(filePath)`, lines 1650-1690, on the readable byte
content of the file.  The first 4096 bytes are kept; a match of any
signature against the buffer's head returns `true` at once; otherwise
null bytes and non-null bytes below 9 are counted and either count
exceeding 10% of the buffer classifies the file binary.  The source
compares `count > buffer.length * 0.1` in IEEE doubles; for the integer
counts and lengths involved that comparison coincides exactly with
`10 * count > buffer.length`.  (The catch branch for an unreadable file,
returning `false`, takes no byte content and is outside this model.) -/
def isBinaryFile (contents : List Nat) : Bool :=
  let buffer := contents.take 4096
  if binarySignatures.any (fun sig => buffer.take sig.length == sig) then true
  else
    let nullCount := (buffer.filter (fun b => b == 0)).length
    let controlCount := (buffer.filter (fun b => b != 0 && b < 9)).length
    decide (10 * nullCount > buffer.length) || decide (10 * controlCount > buffer.length)

/-- Three-way comparison of naturals as an `Int` sign. -/
def cmpNat (x y : Nat) : Int :=
  if x < y then -1 else if y < x then 1 else 0

/-- Three-way comparison of two char lists under a per-char comparison;
a proper initial segment compares smaller. -/
def listCmpWith (f : Char → Char → Int) : List Char → List Char → Int
  | [], [] => 0
  | [], _ :: _ => -1
  | _ :: _, [] => 1
  | a :: as, b :: bs => if f a b = 0 then listCmpWith f as bs else f a b

/-- Model of JavaScript `String.prototype.localeCompare` under the
default locale, restricted to ASCII names: the Unicode Collation
Algorithm compares letters case-insensitively at the primary level
(`a < b` regardless of case) and falls back to case only for strings
equal up to case, lowercase ordering before uppercase. -/
def localeCompare (a b : String) : Int :=
  let primary := listCmpWith (fun x y => cmpNat x.toLower.toNat y.toLower.toNat) a.data b.data
  if primary = 0 then
    listCmpWith (fun x y => cmpNat (if x.isUpper then 1 else 0) (if y.isUpper then 1 else 0))
      a.data b.data
  else primary

/-- A directory entry as `scanDirectory` sees it after `stat`: name and
kind. -/
structure FsEntry where
  name : String
  isDirectory : Bool
deriving DecidableEq, Repr

/-- The sort comparator of `scanDirectory`, lines 924-928 (identical in
`loadLargeDirectoryContents` lines 1165-1169 and
`DirectoryTree.loadChildrenForNode`, `src/src/treeUI.ts` lines 209-213):
directories strictly before files, ties by `localeCompare` on names. -/
def entryCompare (a b : FsEntry) : Int :=
  if a.isDirectory && !b.isDirectory then -1
  else if !a.isDirectory && b.isDirectory then 1
  else localeCompare a.name b.name

/-- Stable insertion preserving the comparator order (equal keys keep
their original relative order, as ECMAScript `sort` guarantees). -/
def insertEntry (x : FsEntry) : List FsEntry → List FsEntry
  | [] => [x]
  | y :: ys => if entryCompare x y < 0 then x :: y :: ys else y :: insertEntry x ys

/-- `sorted.sort((a, b) => ...)` of `scanDirectory` as a stable sort by
`entryCompare`. -/
def sortEntries : List FsEntry → List FsEntry
  | [] => []
  | x :: xs => insertEntry x (sortEntries xs)

/-- The children `scanDirectory` (lines 903-951) builds for one directory
at `parentPath` from its error-free stat-ed entries: the entries are
sorted and one `DirectoryNode` is created per entry, in that order.  The
recursive descent into child directories fills their own children and
does not reorder this list. -/
def scanChildren (parentPath : String) (entries : List FsEntry) : List DNode :=
  (sortEntries entries).map
    (fun en => DNode.mk (parentPath ++ "/" ++ en.name) en.name en.isDirectory false false false [])

/-- Case-sensitive lexicographic order on names, written from the spec's
words (§3: "case-sensitive lexicographic by name"): strict lexicographic
order on the code points.  To be compared against the `localeCompare`
order the source actually sorts by. -/
def codeUnitLt (a b : String) : Prop :=
  List.Lex (· < ·) a.data b.data

/-- The positions of the strict ancestors of a position, deepest first —
the order in which `updateParentSelectionStates` (lines 1228-1240) meets
them while chopping the path upward.  For `i :: rest` these are the
ancestors inside child `i` (each with `i` re-attached) followed by the
root `[]`. -/
def ancestorChain : List Nat → List (List Nat)
  | [] => []
  | i :: rest => (ancestorChain rest).map (fun q => i :: q) ++ [[]]

/-- `a` addresses an ancestor of — or the same node as — `b`: `b` extends
`a` downward. -/
def isAncestorOrSelf (a b : List Nat) : Prop :=
  ∃ q, a ++ q = b

mutual

/-- The number of nodes of the tree whose `selected` flag (= Full) is
set. -/
def countFull : DNode → Nat
  | .mk _ _ _ s _ _ cs => (if s then 1 else 0) + countFullList cs

def countFullList : List DNode → Nat
  | [] => 0
  | c :: cs => countFull c + countFullList cs

end

/-- `updateParentSelectionStates(node)`, lines 1228-1240, as it is
written: the `while (parent)` loop recomputes every ancestor with
`updateDirectorySelectionState`, deepest first, with no break; the
returned list records each ancestor the loop visited, in visit order. -/
def updateAncestorsWalk (t : DNode) (pos : List Nat) : DNode × List (List Nat) :=
  (ancestorChain pos).foldl
    (fun acc q => (updateAt updateDirectorySelectionState q acc.1, acc.2 ++ [q]))
    (t, [])

/-- The upward walk as the spec describes it: recompute each ancestor
from its direct children but stop at the first ancestor whose recomputed
state equals its previously recorded state, visiting no ancestors above
that point.  Written from the spec's words, to compare against
`updateAncestorsWalk`. -/
def updateAncestorsSpecWalk (t : DNode) (pos : List Nat) : DNode × List (List Nat) :=
  go t (ancestorChain pos) []
where
  go : DNode → List (List Nat) → List (List Nat) → DNode × List (List Nat)
    | t, [], vis => (t, vis)
    | t, q :: qs, vis =>
      let t' := updateAt updateDirectorySelectionState q t
      if (nodeAt q t').map selStateOf = (nodeAt q t).map selStateOf then (t', vis ++ [q])
      else go t' qs (vis ++ [q])

/-- `toggleSelect`'s own mutation without the parent walk: the node at the
position is toggled (and its subtree stamped when it is a directory). -/
def stampAt (pos : List Nat) (t : DNode) : DNode :=
  updateAt toggleSelf pos t

end TreeView

namespace Llmcp

/-- Modelled from the spec: the tri-state selection enum `SelectState`
(`src/src/selectState.ts` is imported by `directoryNode` and `treeUI.ts`
but is not among the repository's files).  Spec §3: tri-state
{None, Partial, Full}. -/
inductive SelectState where
  | stNone
  | stPart
  | stFull
deriving DecidableEq, Repr

/-- A `DirectoryTreeNode` (`src/src/directoryNode` = `src/unnamed/part_000`)
as a record in the path-keyed arena: `children` and `parent` hold the
globally unique `path` keys of the referenced nodes, matching the source's
shared mutable objects reached through `nodeMap`. -/
structure TRec where
  name : String
  isDirectory : Bool
  expanded : Bool
  loaded : Bool
  selected : SelectState
  childrenPaths : List String
  parent : Option String
deriving DecidableEq, Repr

/-- The `nodeMap : Map<string, DirectoryTreeNode>` of `DirectoryTree`. -/
def Store := List (String × TRec)

/-- `Map.get`. -/
def lookupStore (st : Store) (p : String) : Option TRec :=
  match st with
  | [] => Option.none
  | (k, r) :: rest => if k == p then some r else lookupStore rest p

/-- `Map.set`: replace the value under an existing key, else append. -/
def setStore (st : Store) (p : String) (r : TRec) : Store :=
  match st with
  | [] => [(p, r)]
  | (k, r0) :: rest => if k == p then (p, r) :: rest else (k, r0) :: setStore rest p r

/-- The comparator of `loadChildrenForNode` (`src/src/treeUI.ts` lines
209-213) lifted to the arena: the child records are fetched by key and
compared as directory entries. -/
def childCompare (st : Store) (a b : String) : Int :=
  match lookupStore st a, lookupStore st b with
  | some ra, some rb =>
    TreeView.entryCompare ⟨ra.name, ra.isDirectory⟩ ⟨rb.name, rb.isDirectory⟩
  | _, _ => 0

def insertChildKey (st : Store) (x : String) : List String → List String
  | [] => [x]
  | y :: ys => if childCompare st x y < 0 then x :: y :: ys else y :: insertChildKey st x ys

def sortChildKeys (st : Store) : List String → List String
  | [] => []
  | x :: xs => insertChildKey st x (sortChildKeys st xs)

/-- `DirectoryTree.loadChildrenForNode(node)`, `src/src/treeUI.ts` lines
198-217: read the directory's entries (`readdir path = Option.none` is the
catch branch: an error is logged and nothing changes), create one child
node per entry, `addChild` it (append its key to the parent's children,
set its parent) and register it in the map, then sort the parent's
children with the directories-first / `localeCompare` comparator. -/
def loadChildrenForNode (readdir : String → Option (List TreeView.FsEntry))
    (st : Store) (path : String) : Store :=
  match readdir path with
  | Option.none => st
  | some entries =>
    let st1 := entries.foldl
      (fun acc en =>
        let childPath := path ++ "/" ++ en.name
        let child : TRec :=
          ⟨en.name, en.isDirectory, false, false, .stNone, [], some path⟩
        let acc1 := setStore acc childPath child
        match lookupStore acc1 path with
        | some pr => setStore acc1 path {pr with childrenPaths := pr.childrenPaths ++ [childPath]}
        | Option.none => acc1)
      st
    match lookupStore st1 path with
    | some pr => setStore st1 path {pr with childrenPaths := sortChildKeys st1 pr.childrenPaths}
    | Option.none => st1

/-- `DirectoryTree.expandNode(path)`, `src/src/treeUI.ts` lines 219-230:
look the node up; return untouched when the path is absent or the node is
not a directory; otherwise toggle `expanded`
(`DirectoryTreeNode.toggleExpand`) and, when now expanding a node not yet
loaded, load its children and mark it loaded. -/
def expandNode (readdir : String → Option (List TreeView.FsEntry))
    (st : Store) (path : String) : Store :=
  match lookupStore st path with
  | Option.none => st
  | some node =>
    if !node.isDirectory then st
    else
      let expanded' := !node.expanded
      let st1 := setStore st path {node with expanded := expanded'}
      if expanded' && !node.loaded then
        let st2 := loadChildrenForNode readdir st1 path
        match lookupStore st2 path with
        | some n2 => setStore st2 path {n2 with loaded := true}
        | Option.none => st2
      else st1

/-- JavaScript `Array.prototype.findIndex` under strict equality:
the index of the first occurrence, `-1` when absent
(`FileExport.removeFile`, `src/src/fileExport.ts` line 16). -/
def findIndexStr (l : List String) (p : String) : Int :=
  match l.findIdx? (fun x => x == p) with
  | some i => (i : Int)
  | Option.none => -1

/-- JavaScript `Array.prototype.splice(start, 1)`: a negative `start`
counts from the end of the array, clamped below at `0`; a `start` past
the end is clamped to the length; one element at the resulting index is
removed. -/
def spliceRemoveOne (l : List String) (start : Int) : List String :=
  let s : Nat := if start < 0 then (max ((l.length : Int) + start) 0).toNat
                 else (min start (l.length : Int)).toNat
  l.take s ++ l.drop (s + 1)

/-- `FileExport.removeFile(path)`, `src/src/fileExport.ts` lines 15-18:
`splice(findIndex(path), 1)` on the selected-paths list. -/
def removeFile (selectedPaths : List String) (path : String) : List String :=
  spliceRemoveOne selectedPaths (findIndexStr selectedPaths path)

end Llmcp

/-- Setting an index of a list to the element it already holds changes
nothing. -/
theorem list_set_self_of_getElem {α : Type} {l : List α} {i : Nat} {c : α}
    (h : l[i]? = some c) : l.set i c = l := by
  apply List.ext_getElem?
  intro j
  by_cases hij : i = j
  · subst hij
    rw [List.getElem?_set_self (List.getElem?_eq_some_iff.mp h).1, h]
  · rw [List.getElem?_set_ne hij]

namespace TreeView

/-- `WFBList` is the conjunction of `WFB` over the members. -/
theorem WFBList_iff (cs : List DNode) : WFBList cs = true ↔ ∀ c ∈ cs, WFB c = true := by
  induction cs with
  | nil => simp [WFBList]
  | cons c cs ih => simp [WFBList, ih]

/-- `InvBList` is the conjunction of `InvB` over the members. -/
theorem InvBList_iff (cs : List DNode) : InvBList cs = true ↔ ∀ c ∈ cs, InvB c = true := by
  induction cs with
  | nil => simp [InvBList]
  | cons c cs ih => simp [InvBList, ih]

/-- C8: a file whose readable prefix begins with the four PNG magic bytes
`0x89 0x50 0x4E 0x47` is classified binary by `isBinaryFile`, whatever
the remaining bytes are. -/
theorem isBinaryFile_png_magic (contents : List Nat)
    (h : contents.take 4 = [0x89, 0x50, 0x4E, 0x47]) :
    isBinaryFile contents = true := by
  have hb : (contents.take 4096).take 4 = [0x89, 0x50, 0x4E, 0x47] := by
    rw [List.take_take]
    simpa using h
  unfold isBinaryFile
  rw [if_pos]
  apply List.any_eq_true.mpr
  refine ⟨[0x89, 0x50, 0x4E, 0x47], by simp [binarySignatures], ?_⟩
  have : ([0x89, 0x50, 0x4E, 0x47] : List Nat).length = 4 := rfl
  rw [this, hb]
  rfl

/-- Witness for C8: the spec's own instance, a 10-byte file whose first
four bytes are the PNG signature and whose tail is arbitrary. -/
theorem isBinaryFile_png_magic_witness :
    ([0x89, 0x50, 0x4E, 0x47, 1, 2, 3, 4, 5, 6] : List Nat).take 4
        = [0x89, 0x50, 0x4E, 0x47]
      ∧ isBinaryFile [0x89, 0x50, 0x4E, 0x47, 1, 2, 3, 4, 5, 6] = true :=
  ⟨rfl, isBinaryFile_png_magic [0x89, 0x50, 0x4E, 0x47, 1, 2, 3, 4, 5, 6] rfl⟩

end TreeView

namespace Llmcp

/-- C9: `expandNode` on a path that is absent from the node map, or that
maps to a non-directory node, returns the state unchanged — no node's
`expanded`, `loaded`, `children` or selection fields change. -/
theorem expandNode_noop (readdir : String → Option (List TreeView.FsEntry))
    (st : Store) (path : String)
    (h : lookupStore st path = Option.none
      ∨ ∃ n, lookupStore st path = some n ∧ n.isDirectory = false) :
    expandNode readdir st path = st := by
  unfold expandNode
  rcases h with h | ⟨n, hn, hd⟩
  · rw [h]
  · rw [hn]
    simp [hd]

/-- Witness for C9, both hypothesis shapes: a store holding one file
node; `expandNode` is exercised on a missing path and on the file's
path. -/
theorem expandNode_noop_witness :
    (lookupStore [("/r/a.txt", ⟨"a.txt", false, false, false, .stNone, [], some "/r"⟩)]
        "/r/missing" = Option.none
      ∨ ∃ n, lookupStore [("/r/a.txt", ⟨"a.txt", false, false, false, .stNone, [], some "/r"⟩)]
          "/r/missing" = some n ∧ n.isDirectory = false)
      ∧ expandNode (fun _ => Option.none)
          [("/r/a.txt", ⟨"a.txt", false, false, false, .stNone, [], some "/r"⟩)]
          "/r/missing"
        = [("/r/a.txt", ⟨"a.txt", false, false, false, .stNone, [], some "/r"⟩)] :=
  ⟨Or.inl rfl,
   expandNode_noop (fun _ => Option.none)
     [("/r/a.txt", ⟨"a.txt", false, false, false, .stNone, [], some "/r"⟩)]
     "/r/missing" (Or.inl rfl)⟩

/-- C10: `FileExport.removeFile` on a non-empty list that does not
contain the given path deletes the final entry (`findIndex` gives `-1`
and `splice(-1, 1)` removes the last element), rather than leaving the
list unchanged. -/
theorem removeFile_absent_drops_last (l : List String) (p : String)
    (hne : l ≠ []) (hno : p ∉ l) :
    removeFile l p = l.dropLast := by
  have hidx : l.findIdx? (fun x => x == p) = Option.none := by
    rw [List.findIdx?_eq_none_iff]
    intro x hx
    simp only [beq_eq_false_iff_ne, ne_eq]
    intro hxp
    exact hno (hxp ▸ hx)
  have hlen : 1 ≤ l.length := by
    cases l with
    | nil => exact absurd rfl hne
    | cons a as => exact Nat.succ_le_succ (Nat.zero_le _)
  unfold removeFile findIndexStr spliceRemoveOne
  rw [hidx]
  have hstart : ((-1 : Int) < 0) = True := by simp
  simp only [hstart, if_true, reduceIte]
  have hmax : max ((l.length : Int) + (-1)) 0 = (l.length : Int) - 1 := by omega
  have htn : ((l.length : Int) - 1).toNat = l.length - 1 := by omega
  rw [hmax, htn]
  have hdrop : l.drop (l.length - 1 + 1) = [] := by
    apply List.drop_eq_nil_of_le
    omega
  rw [hdrop, List.append_nil, ← List.dropLast_eq_take]

/-- Witness for C10: removing a path that is not in `["a", "b"]` yields
`["a"]`. -/
theorem removeFile_absent_drops_last_witness :
    (["a", "b"] : List String) ≠ [] ∧ "z" ∉ (["a", "b"] : List String)
      ∧ removeFile ["a", "b"] "z" = ["a"] :=
  ⟨by decide, by decide,
   removeFile_absent_drops_last ["a", "b"] "z" (by decide) (by decide)⟩

end Llmcp

namespace TreeView

/-- The collector loop of `getSelectedPaths` over a child list equals the
filtered pre-order, granted the equation for each member. -/
theorem getSelectedPathsList_preorder (cs : List DNode)
    (ih : ∀ c ∈ cs, WFB c = true →
      getSelectedPaths c = ((preorder c).filter (fun x => x.selected)).map DNode.path)
    (hwf : WFBList cs = true) :
    getSelectedPathsList cs
      = ((preorderList cs).filter (fun x => x.selected)).map DNode.path := by
  induction cs with
  | nil => rfl
  | cons c cs ihl =>
    have hwf' := (WFBList_iff (c :: cs)).mp hwf
    rw [getSelectedPathsList, preorderList, List.filter_append, List.map_append]
    rw [ih c (List.mem_cons_self c cs) (hwf' c (List.mem_cons_self c cs))]
    rw [ihl (fun x hx => ih x (List.mem_cons_of_mem c hx))
        ((WFBList_iff cs).mpr (fun x hx => hwf' x (List.mem_cons_of_mem c hx)))]

/-- `getSelectedPaths` collects exactly the `selected` nodes of the
pre-order traversal, in pre-order, for a well-formed tree. -/
theorem getSelectedPaths_preorder (t : DNode) (hwf : WFB t = true) :
    getSelectedPaths t = ((preorder t).filter (fun x => x.selected)).map DNode.path := by
  induction t using DNode.recOnMem with
  | _ p n d s ps e cs ih =>
    have hwf' : (d || cs.isEmpty) && WFBList cs := by
      rw [WFB] at hwf
      exact hwf
    have hcs : WFBList cs = true := (Bool.and_eq_true_iff.mp hwf').2
    rw [getSelectedPaths, preorder]
    cases hd : d with
    | true =>
      rw [List.filter_cons]
      cases hs : (DNode.mk p n true s ps e cs).selected with
      | true =>
        simp only [DNode.selected] at hs
        subst hs
        simp only [if_pos rfl, if_pos trivial, List.map_cons, DNode.path]
        rw [getSelectedPathsList_preorder cs (fun c hc => ih c hc) hcs]
        rfl
      | false =>
        simp only [DNode.selected] at hs
        subst hs
        simp only [Bool.false_eq_true, if_neg, if_pos trivial, List.nil_append]
        rw [getSelectedPathsList_preorder cs (fun c hc => ih c hc) hcs]
        simp
    | false =>
      have hempty : cs.isEmpty = true := by
        subst hd
        simpa using (Bool.and_eq_true_iff.mp hwf').1
      have hnil : cs = [] := List.isEmpty_iff.mp hempty
      subst hnil hd
      cases s <;> rfl

/-- C5 (amended): the saved selection text is the newline-join of the
paths of exactly the `selected` (= Full) nodes in pre-order tree order —
separated by newlines, with no trailing newline. -/
theorem saveSelectionText_preorder (t : DNode) (hwf : WFB t = true) :
    saveSelectionText t
        = String.intercalate "\n" (((preorder t).filter (fun x => x.selected)).map DNode.path)
      ∧ ∀ x ∈ preorder t, x.selected = (selStateOf x == SelState.full) := by
  constructor
  · rw [saveSelectionText, getSelectedPaths_preorder t hwf]
  · intro x _
    unfold selStateOf
    cases hx : x.selected with
    | true => simp only [if_pos]; decide
    | false =>
      cases hps : x.partiallySelected <;> simp <;> decide

/-- Witness for C5's amended theorem at a concrete two-file tree. -/
theorem saveSelectionText_preorder_witness :
    WFB (.mk "/r" "r" true false false false
          [.mk "/r/a" "a" false true false false [],
           .mk "/r/b" "b" false false false false []]) = true
      ∧ saveSelectionText
          (.mk "/r" "r" true false false false
            [.mk "/r/a" "a" false true false false [],
             .mk "/r/b" "b" false false false false []])
        = String.intercalate "\n"
            (((preorder (.mk "/r" "r" true false false false
                [.mk "/r/a" "a" false true false false [],
                 .mk "/r/b" "b" false false false false []])).filter
                (fun x => x.selected)).map DNode.path) :=
  ⟨rfl,
   (saveSelectionText_preorder
      (.mk "/r" "r" true false false false
        [.mk "/r/a" "a" false true false false [],
         .mk "/r/b" "b" false false false false []]) rfl).1⟩

/-- C5 counterexample: with the files `/r/a` and `/r/b` selected, the text
`saveSelection` writes is `"/r/a\n/r/b"` — its final character is `'b'`,
not a newline, so the output is not newline-terminated as claimed. -/
theorem saveSelectionText_not_newline_terminated :
    saveSelectionText
        (.mk "/r" "r" true false false false
          [.mk "/r/a" "a" false true false false [],
           .mk "/r/b" "b" false true false false []])
      = "/r/a\n/r/b"
      ∧ ("/r/a\n/r/b").data.getLast? = some 'b'
      ∧ some 'b' ≠ some '\n' :=
  ⟨rfl, by decide, by decide⟩

end TreeView

namespace TreeView

/-- `cmpNat` is antisymmetric as a sign. -/
theorem cmpNat_neg (x y : Nat) : cmpNat x y = -cmpNat y x := by
  unfold cmpNat
  split_ifs <;> omega

/-- `listCmpWith` of a sign-antisymmetric comparison is itself
sign-antisymmetric. -/
theorem listCmpWith_neg (f : Char → Char → Int) (hf : ∀ a b, f a b = -f b a) :
    ∀ as bs, listCmpWith f as bs = -listCmpWith f bs as := by
  intro as
  induction as with
  | nil => intro bs; cases bs <;> simp [listCmpWith]
  | cons a as ih =>
    intro bs
    cases bs with
    | nil => simp [listCmpWith]
    | cons b bs =>
      rw [listCmpWith, listCmpWith]
      by_cases h : f a b = 0
      · have h' : f b a = 0 := by rw [hf b a]; omega
        rw [if_pos h, if_pos h', ih bs]
      · have h' : ¬(f b a = 0) := by rw [hf b a]; omega
        rw [if_neg h, if_neg h', hf a b]

/-- `localeCompare` is sign-antisymmetric. -/
theorem localeCompare_neg (a b : String) : localeCompare a b = -localeCompare b a := by
  unfold localeCompare
  have h1 := listCmpWith_neg (fun x y => cmpNat x.toLower.toNat y.toLower.toNat)
    (fun x y => cmpNat_neg _ _) a.data b.data
  have h2 := listCmpWith_neg
    (fun x y => cmpNat (if x.isUpper then 1 else 0) (if y.isUpper then 1 else 0))
    (fun x y => cmpNat_neg _ _) a.data b.data
  by_cases h : listCmpWith (fun x y => cmpNat x.toLower.toNat y.toLower.toNat) a.data b.data = 0
  · have h' : listCmpWith (fun x y => cmpNat x.toLower.toNat y.toLower.toNat) b.data a.data = 0 := by
      omega
    rw [if_pos h, if_pos h', h2]
  · have h' : ¬(listCmpWith (fun x y => cmpNat x.toLower.toNat y.toLower.toNat) b.data a.data = 0) := by
      omega
    rw [if_neg h, if_neg h', h1]

/-- The scan comparator is sign-antisymmetric. -/
theorem entryCompare_neg (u v : FsEntry) : entryCompare u v = -entryCompare v u := by
  unfold entryCompare
  cases hu : u.isDirectory <;> cases hv : v.isDirectory <;>
    simp [localeCompare_neg u.name v.name]

/-- Inserting into a comparator-sorted list keeps it sorted. -/
theorem chain_insertEntry (x : FsEntry) (ys : List FsEntry)
    (hs : List.Chain' (fun u v => entryCompare u v ≤ 0) ys) :
    List.Chain' (fun u v => entryCompare u v ≤ 0) (insertEntry x ys) := by
  induction ys with
  | nil => simp [insertEntry]
  | cons y ys ih =>
    rw [insertEntry]
    by_cases h : entryCompare x y < 0
    · rw [if_pos h]
      exact hs.cons (Int.le_of_lt h)
    · rw [if_neg h]
      have hyx : entryCompare y x ≤ 0 := by
        have := entryCompare_neg x y
        omega
      rcases List.chain'_cons'.mp hs with ⟨hhead, htail⟩
      apply List.chain'_cons'.mpr
      refine ⟨?_, ih htail⟩
      intro z hz
      cases ys with
      | nil =>
        simp [insertEntry] at hz
        subst hz
        exact hyx
      | cons y2 ys2 =>
        rw [insertEntry] at hz
        by_cases h2 : entryCompare x y2 < 0
        · rw [if_pos h2] at hz
          simp at hz
          subst hz
          exact hyx
        · rw [if_neg h2] at hz
          simp at hz
          subst hz
          exact hhead y2 (by simp)

/-- `sortEntries` yields a list whose adjacent pairs respect the
comparator. -/
theorem sortEntries_chain (entries : List FsEntry) :
    List.Chain' (fun u v => entryCompare u v ≤ 0) (sortEntries entries) := by
  induction entries with
  | nil => simp [sortEntries]
  | cons e es ih =>
    rw [sortEntries]
    exact chain_insertEntry e _ ih

/-- A non-positive comparator value means: directory before file, or same
kind and locale order. -/
theorem entryCompare_le_cases (u v : FsEntry) (h : entryCompare u v ≤ 0) :
    (u.isDirectory = true ∧ v.isDirectory = false)
      ∨ (u.isDirectory = v.isDirectory ∧ localeCompare u.name v.name ≤ 0) := by
  unfold entryCompare at h
  cases hu : u.isDirectory <;> cases hv : v.isDirectory <;> rw [hu, hv] at h <;> simp_all

end TreeView

namespace TreeView

/-- C6 (amended): children built by a load are ordered with every
directory before every file (globally: no file precedes a directory) and
adjacent same-kind entries in `localeCompare` order — the locale-aware
order the source sorts by, case-insensitive at its primary level, rather
than case-sensitive lexicographic order; the spec's instance
`{b.txt, A/, a.txt}` loads as `A/, a.txt, b.txt`. -/
theorem scanChildren_order (parentPath : String) (entries : List FsEntry) :
    List.Chain'
        (fun u v => (u.isDirectory = true ∧ v.isDirectory = false)
          ∨ (u.isDirectory = v.isDirectory ∧ localeCompare u.name v.name ≤ 0))
        (scanChildren parentPath entries)
      ∧ List.Pairwise (fun u v => v.isDirectory = true → u.isDirectory = true)
          (scanChildren parentPath entries)
      ∧ scanChildren "/r" [⟨"b.txt", false⟩, ⟨"A", true⟩, ⟨"a.txt", false⟩]
        = [.mk "/r/A" "A" true false false false [],
           .mk "/r/a.txt" "a.txt" false false false false [],
           .mk "/r/b.txt" "b.txt" false false false false []] := by
  have hchain := sortEntries_chain entries
  have hmap : List.Chain'
      (fun u v => (u.isDirectory = true ∧ v.isDirectory = false)
        ∨ (u.isDirectory = v.isDirectory ∧ localeCompare u.name v.name ≤ 0))
      (scanChildren parentPath entries) := by
    unfold scanChildren
    apply (List.chain'_map _).mpr
    apply hchain.imp
    intro a b hab
    have := entryCompare_le_cases a b hab
    simpa [DNode.isDirectory, DNode.name] using this
  refine ⟨hmap, ?_, rfl⟩
  haveI : IsTrans DNode (fun u v => v.isDirectory = true → u.isDirectory = true) :=
    ⟨fun _ _ _ hab hbc hc => hab (hbc hc)⟩
  apply List.chain'_iff_pairwise.mp
  apply hmap.imp
  intro a b hab hb
  rcases hab with ⟨ha, hb'⟩ | ⟨heq, _⟩
  · exact ha
  · rw [heq, hb]

/-- C6 counterexample: two plain files `B.txt` and `a.txt` load in the
order `a.txt, B.txt`, yet in case-sensitive lexicographic order `B.txt`
strictly precedes `a.txt` — the within-kind order is `localeCompare`, not
case-sensitive lexicographic comparison. -/
theorem scanChildren_not_case_sensitive :
    (scanChildren "/r" [⟨"B.txt", false⟩, ⟨"a.txt", false⟩]).map DNode.name
        = ["a.txt", "B.txt"]
      ∧ ¬ codeUnitLt "a.txt" "B.txt"
      ∧ codeUnitLt "B.txt" "a.txt" :=
  ⟨rfl, by unfold codeUnitLt; decide, by unfold codeUnitLt; decide⟩

end TreeView

namespace TreeView

/-- The flattening always begins with the flattened node itself, so it is
never empty. -/
theorem visibleList_ne_nil (ignore : List String) (t : DNode) :
    visibleList ignore t ≠ [] := by
  cases t with
  | mk p n d s ps e cs =>
    rw [visibleList]
    exact List.cons_ne_nil _ _

/-- C7: after a rebuild of the visible list with a root present and the
cursor previously on a node, the cursor lands on that node's path's new
index when the path is still visible, and on
`min(oldIndex, newLength - 1)` otherwise; either way the new cursor is
never negative. -/
theorem updateVisibleNodes_cursor (ignore : List String) (r : DNode)
    (oldVisible : List DNode) (oldCursor : Int) (x : DNode)
    (h0 : 0 ≤ oldCursor) (hx : oldVisible[oldCursor.toNat]? = some x) :
    ((updateVisibleNodes ignore (some r) oldVisible oldCursor).1
        = visibleList ignore (setExpandedTrue r))
      ∧ (∀ idx, (visibleList ignore (setExpandedTrue r)).findIdx?
            (fun nd => nd.path == x.path) = some idx
          → (updateVisibleNodes ignore (some r) oldVisible oldCursor).2 = (idx : Int))
      ∧ ((visibleList ignore (setExpandedTrue r)).findIdx?
            (fun nd => nd.path == x.path) = Option.none
          → (updateVisibleNodes ignore (some r) oldVisible oldCursor).2
            = min oldCursor (((visibleList ignore (setExpandedTrue r)).length : Int) - 1))
      ∧ 0 ≤ (updateVisibleNodes ignore (some r) oldVisible oldCursor).2 := by
  rcases List.getElem?_eq_some_iff.mp hx with ⟨hlt, _⟩
  have hcond : 0 < oldVisible.length ∧ oldCursor < (oldVisible.length : Int) := by
    constructor
    · omega
    · omega
  have hL : 1 ≤ (visibleList ignore (setExpandedTrue r)).length := by
    have := visibleList_ne_nil ignore (setExpandedTrue r)
    cases hv : visibleList ignore (setExpandedTrue r) with
    | nil => exact absurd hv this
    | cons a l => simp
  rw [updateVisibleNodes]
  simp only [if_pos hcond, hx, Option.map_some']
  refine ⟨trivial, ?_, ?_, ?_⟩
  · intro idx2 hidx2
    have hidx : idx2 < (visibleList ignore (setExpandedTrue r)).length :=
      (List.findIdx?_eq_some_iff_findIdx_eq.mp hidx2).1
    simp only [hidx2]
    split_ifs <;> omega
  · intro hnone
    simp only [hnone]
    split_ifs <;> omega
  · cases hfind : (visibleList ignore (setExpandedTrue r)).findIdx?
        (fun nd => nd.path == x.path) with
    | some idx =>
      have hidx : idx < (visibleList ignore (setExpandedTrue r)).length :=
        (List.findIdx?_eq_some_iff_findIdx_eq.mp hfind).1
      simp only [hfind]
      split_ifs <;> omega
    | none =>
      simp only [hfind]
      split_ifs <;> omega

end TreeView

namespace TreeView

/-- Witness for C7: a rebuild with a one-node root and a cursor that was
on a now-invisible node yields cursor `min(0, 0) = 0`, in particular not
negative. -/
theorem updateVisibleNodes_cursor_witness :
    0 ≤ (updateVisibleNodes [] (some (.mk "/r" "r" true false false false []))
        [.mk "/old" "o" false false false false []] 0).2 :=
  (updateVisibleNodes_cursor [] (.mk "/r" "r" true false false false [])
    [.mk "/old" "o" false false false false []] 0
    (.mk "/old" "o" false false false false [])
    (by decide) rfl).2.2.2

end TreeView

namespace TreeView

/-- Recomputing a directory's state never touches its children. -/
theorem updateDir_children (t : DNode) :
    (updateDirectorySelectionState t).children = t.children := by
  cases t with
  | mk p n d s ps e cs =>
    rw [updateDirectorySelectionState]
    dsimp only
    split_ifs <;> rfl

/-- Recomputing a directory's state keeps everything except the two
selection flags; the result is again a `mk` with the same path, name,
kind, expansion and children. -/
theorem updateDir_shape (p n : String) (d s ps e : Bool) (cs : List DNode) :
    ∃ s' ps', updateDirectorySelectionState (.mk p n d s ps e cs) = .mk p n d s' ps' e cs := by
  rw [updateDirectorySelectionState]
  dsimp only
  split_ifs <;> exact ⟨_, _, rfl⟩

/-- The stamp loop over a child list is a map of the stamp. -/
theorem ssrList_eq_map (b : Bool) (cs : List DNode) :
    setSelectionRecursiveList b cs = cs.map (setSelectionRecursive b) := by
  induction cs with
  | nil => rfl
  | cons c cs ih => rw [setSelectionRecursiveList, ih]; rfl

/-- The stamp on a directory node. -/
theorem stamp_dir (b : Bool) (p n : String) (s ps e : Bool) (cs : List DNode) :
    setSelectionRecursive b (.mk p n true s ps e cs)
      = .mk p n true b false e (cs.map (setSelectionRecursive b)) := by
  rw [setSelectionRecursive, if_pos rfl, ssrList_eq_map]

/-- The stamp on a file node. -/
theorem stamp_file (b : Bool) (p n : String) (s ps e : Bool) (cs : List DNode) :
    setSelectionRecursive b (.mk p n false s ps e cs) = .mk p n false b false e cs := by
  rw [setSelectionRecursive]
  simp

/-- The stamp writes the requested flags on the node itself. -/
theorem stamp_flags (b : Bool) (t : DNode) :
    (setSelectionRecursive b t).selected = b
      ∧ (setSelectionRecursive b t).partiallySelected = false := by
  cases t with
  | mk p n d s ps e cs =>
    cases d with
    | true => rw [stamp_dir]; exact ⟨rfl, rfl⟩
    | false => rw [stamp_file]; exact ⟨rfl, rfl⟩

/-- The selection state of a freshly stamped node. -/
theorem stamp_selState (b : Bool) (t : DNode) :
    selStateOf (setSelectionRecursive b t) = (if b then SelState.full else SelState.none) := by
  have h := stamp_flags b t
  rw [selStateOf, h.1, h.2]
  cases b <;> simp

/-- The stamp does not change a node's kind. -/
theorem stamp_isDirectory (b : Bool) (t : DNode) :
    (setSelectionRecursive b t).isDirectory = t.isDirectory := by
  cases t with
  | mk p n d s ps e cs =>
    cases d with
    | true => rw [stamp_dir]; rfl
    | false => rw [stamp_file]; rfl

/-- `selStateOf` is Full exactly when the `selected` flag is set. -/
theorem selState_full_iff (t : DNode) :
    selStateOf t = SelState.full ↔ t.selected = true := by
  rw [selStateOf]
  cases hs : t.selected with
  | true => simp
  | false => cases hps : t.partiallySelected <;> simp

/-- Pointwise: the Full test on the derived state is the `selected`
flag. -/
theorem selState_beq_full (c : DNode) :
    (selStateOf c == SelState.full) = c.selected := by
  rw [selStateOf]
  cases hs : c.selected with
  | true => rfl
  | false => cases hps : c.partiallySelected <;> rfl

/-- Pointwise: the None test on the derived state is the negation of both
flags. -/
theorem selState_beq_none (c : DNode) :
    (selStateOf c == SelState.none) = (!c.selected && !c.partiallySelected) := by
  rw [selStateOf]
  cases hs : c.selected with
  | true => rfl
  | false => cases hps : c.partiallySelected <;> rfl

/-- The spec's derived state in terms of the source's `allSelected` /
`anySelected` tests: both decision trees agree. -/
theorem claimState_cases (cs : List DNode) :
    claimState cs
      = (if cs.all (fun c => c.selected) then SelState.full
         else if cs.any (fun c => c.selected || c.partiallySelected) then SelState.part
         else SelState.none) := by
  rw [claimState]
  have h1 : cs.all (fun c => selStateOf c == SelState.full) = cs.all (fun c => c.selected) := by
    congr 1
    funext c
    rw [selState_beq_full]
  have h2 : cs.all (fun c => selStateOf c == SelState.none)
      = !(cs.any (fun c => c.selected || c.partiallySelected)) := by
    rw [List.not_any_eq_all_not]
    congr 1
    funext c
    rw [selState_beq_none]
    cases c.selected <;> cases c.partiallySelected <;> rfl
  rw [h1, h2]
  by_cases ha : cs.all (fun c => c.selected) = true
  · rw [if_pos ha, if_pos ha]
  · rw [if_neg ha, if_neg ha]
    by_cases hb : cs.any (fun c => c.selected || c.partiallySelected) = true
    · rw [hb]
      simp
    · rw [Bool.not_eq_true] at hb
      rw [hb]
      simp

/-- After `updateDirectorySelectionState`, a directory with children
carries exactly the state §3's invariant derives from them. -/
theorem updateDir_selState (p n : String) (s ps e : Bool) (cs : List DNode)
    (h : cs ≠ []) :
    selStateOf (updateDirectorySelectionState (.mk p n true s ps e cs)) = claimState cs := by
  rw [updateDirectorySelectionState, claimState_cases]
  have hne : (List.isEmpty cs) = false := by
    cases cs with
    | nil => exact absurd rfl h
    | cons a l => rfl
  rw [hne]
  simp only [Bool.not_true, Bool.false_or, if_neg Bool.false_ne_true]
  by_cases ha : cs.all (fun c => c.selected) = true
  · rw [if_pos ha, if_pos ha]
    rfl
  · rw [if_neg ha, if_neg ha]
    by_cases hb : cs.any (fun c => c.selected || c.partiallySelected) = true
    · rw [if_pos hb, if_pos hb]
      rfl
    · rw [if_neg hb, if_neg hb]
      rfl

end TreeView

namespace TreeView

/-- The derived state of a non-empty stamped child list is Full or None
according to the stamp. -/
theorem claimState_stamped (b : Bool) (cs : List DNode) (h : cs ≠ []) :
    claimState (cs.map (setSelectionRecursive b))
      = (if b then SelState.full else SelState.none) := by
  rw [claimState_cases]
  have hall : (cs.map (setSelectionRecursive b)).all (fun c => c.selected)
      = cs.all (fun _ => b) := by
    rw [List.all_map]
    congr 1
    funext c
    simp only [Function.comp_apply]
    exact (stamp_flags b c).1
  have hany : (cs.map (setSelectionRecursive b)).any
        (fun c => c.selected || c.partiallySelected)
      = cs.any (fun _ => b) := by
    rw [List.any_map]
    congr 1
    funext c
    simp only [Function.comp_apply]
    rw [(stamp_flags b c).1, (stamp_flags b c).2]
    exact Bool.or_false b
  rw [hall, hany]
  cases b with
  | true =>
    have : cs.all (fun _ => true) = true := List.all_eq_true.mpr (fun _ _ => rfl)
    rw [this, if_pos rfl, if_pos rfl]
  | false =>
    have hfa : cs.all (fun _ => false) = false := by
      cases cs with
      | nil => exact absurd rfl h
      | cons a l => rw [List.all_cons]; rfl
    have hfn : cs.any (fun _ => false) = false := by
      simp
    rw [hfa, hfn]
    simp

end TreeView

namespace TreeView

/-- Stamping a subtree preserves the tri-state invariant: every stamped
directory's children all end in the stamped state, and subtrees the stamp
does not reach are untouched. -/
theorem InvB_stamp (b : Bool) (t : DNode) (hI : InvB t = true) :
    InvB (setSelectionRecursive b t) = true := by
  induction t using DNode.recOnMem with
  | _ p n d s ps e cs ih =>
    rw [InvB] at hI
    rcases Bool.and_eq_true_iff.mp hI with ⟨_, hlist⟩
    have hmem := (InvBList_iff cs).mp hlist
    cases d with
    | false =>
      rw [stamp_file, InvB]
      simp only [Bool.false_and, Bool.false_eq_true, if_false, Bool.true_and]
      exact hlist
    | true =>
      rw [stamp_dir, InvB, Bool.and_eq_true]
      have hlist' : InvBList (cs.map (setSelectionRecursive b)) = true := by
        rw [InvBList_iff]
        intro c' hc'
        rcases List.mem_map.mp hc' with ⟨c, hc, rfl⟩
        exact ih c hc (hmem c hc)
      refine ⟨?_, hlist'⟩
      have hsel : selStateOf (DNode.mk p n true b false e (cs.map (setSelectionRecursive b)))
          = (if b then SelState.full else SelState.none) := by
        rw [selStateOf]
        cases b <;> rfl
      by_cases hcond : (true && !(cs.map (setSelectionRecursive b)).isEmpty) = true
      · rw [if_pos hcond, hsel]
        have hne : cs ≠ [] := by
          intro hh
          subst hh
          simp at hcond
        rw [claimState_stamped b cs hne]
        cases b <;> rfl
      · rw [if_neg hcond]

/-- Toggling a node's own subtree preserves the invariant. -/
theorem InvB_toggleSelf (t : DNode) (hI : InvB t = true) :
    InvB (toggleSelf t) = true := by
  cases t with
  | mk p n d s ps e cs =>
    rw [toggleSelf]
    dsimp only [DNode.isDirectory, DNode.selected]
    cases d with
    | true =>
      rw [if_pos rfl]
      exact InvB_stamp _ _ hI
    | false =>
      rw [if_neg (by simp)]
      rw [InvB] at hI ⊢
      simp only [Bool.false_and, Bool.false_eq_true, if_false, Bool.true_and] at hI ⊢
      exact hI

/-- C1's core preservation: one `toggleSelect` — the downward stamp plus
the unconditional recomputation of every ancestor — preserves the
tri-state invariant over the whole tree. -/
theorem InvB_toggleAt (pos : List Nat) (t : DNode) (hI : InvB t = true) :
    InvB (toggleAt pos t) = true := by
  induction pos generalizing t with
  | nil => exact InvB_toggleSelf t hI
  | cons i rest ih =>
    cases t with
    | mk p n d s ps e cs =>
      rw [toggleAt]
      cases hcs : cs[i]? with
      | none => exact hI
      | some c =>
        dsimp only
        rw [InvB] at hI
        rcases Bool.and_eq_true_iff.mp hI with ⟨_, hlist⟩
        have hmem := (InvBList_iff cs).mp hlist
        have hci : c ∈ cs := List.getElem?_mem hcs
        have hlist' : InvBList (cs.set i (toggleAt rest c)) = true := by
          rw [InvBList_iff]
          intro x hx
          rcases List.mem_or_eq_of_mem_set hx with hx' | rfl
          · exact hmem x hx'
          · exact ih c (hmem c hci)
        rcases updateDir_shape p n d s ps e (cs.set i (toggleAt rest c)) with ⟨s', ps', heq⟩
        rw [heq, InvB, Bool.and_eq_true]
        refine ⟨?_, hlist'⟩
        by_cases hcond : (d && !(cs.set i (toggleAt rest c)).isEmpty) = true
        · have hd : d = true := (Bool.and_eq_true_iff.mp hcond).1
          subst hd
          rw [if_pos hcond]
          have hne : cs.set i (toggleAt rest c) ≠ [] := by
            have h2 := (Bool.and_eq_true_iff.mp hcond).2
            intro hh
            rw [hh] at h2
            simp at h2
          have hst := updateDir_selState p n s ps e (cs.set i (toggleAt rest c)) hne
          rw [heq] at hst
          rw [hst]
          cases claimState (cs.set i (toggleAt rest c)) <;> rfl
        · rw [if_neg hcond]

/-- C1: starting from any tree satisfying §3's tri-state invariant (in
particular the freshly scanned all-None tree), after every sequence of
selection toggles every directory node with at least one child still
carries Full iff all its direct children are Full, None iff all are None,
and Partial otherwise. -/
theorem selection_invariant_after_toggles (t : DNode) (hI : InvB t = true)
    (ps : List (List Nat)) : InvB (applyToggles t ps) = true := by
  induction ps generalizing t with
  | nil => exact hI
  | cons pos ps ih => exact ih (toggleAt pos t) (InvB_toggleAt pos t hI)

/-- Witness for C1: a two-level tree, toggling the inner directory and
then the file inside it. -/
theorem selection_invariant_after_toggles_witness :
    InvB (.mk "/r" "r" true false false false
        [.mk "/r/c" "c" true false false false
          [.mk "/r/c/d" "d" false false false false []]]) = true
      ∧ InvB (applyToggles
          (.mk "/r" "r" true false false false
            [.mk "/r/c" "c" true false false false
              [.mk "/r/c/d" "d" false false false false []]])
          [[0], [0, 0]]) = true :=
  ⟨rfl,
   selection_invariant_after_toggles
     (.mk "/r" "r" true false false false
       [.mk "/r/c" "c" true false false false
         [.mk "/r/c/d" "d" false false false false []]]) rfl [[0], [0, 0]]⟩

end TreeView

namespace TreeView

/-- Looking up a concatenated position descends through both parts. -/
theorem nodeAt_append (a b : List Nat) (t : DNode) :
    nodeAt (a ++ b) t = (nodeAt a t).bind (nodeAt b) := by
  induction a generalizing t with
  | nil => rfl
  | cons i rest ih =>
    cases t with
    | mk p n d s ps e cs =>
      rw [List.cons_append, nodeAt, nodeAt]
      dsimp only [DNode.children]
      cases hcs : cs[i]? with
      | none => rfl
      | some c0 => exact ih c0

/-- Well-formedness restricts to every subtree. -/
theorem WFB_nodeAt (q : List Nat) (t c : DNode) (hwf : WFB t = true)
    (h : nodeAt q t = some c) : WFB c = true := by
  induction q generalizing t with
  | nil =>
    rw [nodeAt] at h
    injection h with h
    subst h
    exact hwf
  | cons i rest ih =>
    cases t with
    | mk p n d s ps e cs =>
      rw [nodeAt] at h
      dsimp only [DNode.children] at h
      cases hcs : cs[i]? with
      | none => rw [hcs] at h; exact absurd h (by simp)
      | some c0 =>
        rw [hcs] at h
        dsimp only at h
        rw [WFB] at hwf
        have hlist := (Bool.and_eq_true_iff.mp hwf).2
        exact ih c0 ((WFBList_iff cs).mp hlist c0 (List.getElem?_mem hcs)) h

/-- The toggled node afterwards: ancestors only have their own flags
recomputed, so the node at the toggled position is exactly the toggled
original. -/
theorem nodeAt_toggleAt (pos : List Nat) (t c : DNode) (h : nodeAt pos t = some c) :
    nodeAt pos (toggleAt pos t) = some (toggleSelf c) := by
  induction pos generalizing t with
  | nil =>
    rw [nodeAt] at h
    injection h with h
    subst h
    rfl
  | cons i rest ih =>
    cases t with
    | mk p n d s ps e cs =>
      rw [nodeAt] at h
      dsimp only [DNode.children] at h
      cases hcs : cs[i]? with
      | none => rw [hcs] at h; exact absurd h (by simp)
      | some c0 =>
        rw [hcs] at h
        dsimp only at h
        have hlen : i < cs.length := (List.getElem?_eq_some_iff.mp hcs).1
        rw [toggleAt, hcs]
        dsimp only
        rw [nodeAt, updateDir_children]
        dsimp only [DNode.children]
        rw [List.getElem?_set_self (by simpa using hlen)]
        dsimp only
        exact ih c0 h

/-- Every node of a stamped well-formed subtree carries the stamped
state. -/
theorem stamp_all (b : Bool) (t : DNode) (hwf : WFB t = true) :
    ∀ q c', nodeAt q (setSelectionRecursive b t) = some c'
      → selStateOf c' = (if b then SelState.full else SelState.none) := by
  induction t using DNode.recOnMem with
  | _ p n d s ps e cs ih =>
    intro q c' h
    cases q with
    | nil =>
      rw [nodeAt] at h
      injection h with h
      subst h
      exact stamp_selState b _
    | cons i rest =>
      rw [WFB] at hwf
      rcases Bool.and_eq_true_iff.mp hwf with ⟨hshape, hlist⟩
      cases d with
      | false =>
        have hnil : cs = [] := by
          cases cs with
          | nil => rfl
          | cons a l => simp at hshape
        subst hnil
        rw [stamp_file, nodeAt] at h
        dsimp only [DNode.children] at h
        simp at h
      | true =>
        rw [stamp_dir, nodeAt] at h
        dsimp only [DNode.children] at h
        rw [List.getElem?_map] at h
        cases hcs : cs[i]? with
        | none => rw [hcs] at h; exact absurd h (by simp)
        | some c0 =>
          rw [hcs] at h
          dsimp only [Option.map_some'] at h
          have hmm : c0 ∈ cs := List.getElem?_mem hcs
          exact ih c0 hmm ((WFBList_iff cs).mp hlist c0 hmm) rest c' h

/-- The next state the toggle computes, as a function of the previous
derived state: None exactly when the node was Full, Full otherwise. -/
theorem next_ite (c : DNode) :
    (if !c.selected then SelState.full else SelState.none)
      = (if selStateOf c = SelState.full then SelState.none else SelState.full) := by
  cases hs : c.selected with
  | true =>
    rw [if_neg (by simp), if_pos ((selState_full_iff c).mpr hs)]
  | false =>
    rw [if_pos (by simp), if_neg]
    intro hcon
    rw [(selState_full_iff c).mp hcon] at hs
    exact absurd hs (by simp)

/-- The toggled node's own state after `toggleSelect`. -/
theorem toggleSelf_selState (c : DNode) :
    selStateOf (toggleSelf c)
      = (if selStateOf c = SelState.full then SelState.none else SelState.full) := by
  rw [← next_ite]
  cases c with
  | mk p n d s ps e cs =>
    rw [toggleSelf]
    dsimp only [DNode.isDirectory, DNode.selected]
    cases d with
    | true =>
      rw [if_pos rfl, stamp_selState]
    | false =>
      rw [if_neg (by simp)]
      cases s <;> rfl

end TreeView

namespace TreeView

/-- C2: toggling the node at `pos` computes the next state as None when
the node was Full and Full otherwise (a Partial directory toggles to
Full); it sets that state on the node itself, and for a directory every
node of the subtree (in a well-formed tree: every descendant) receives
that same state. -/
theorem toggle_next_state (t : DNode) (pos : List Nat) (c : DNode)
    (hwf : WFB t = true) (hc : nodeAt pos t = some c) :
    nodeAt pos (toggleAt pos t) = some (toggleSelf c)
      ∧ selStateOf (toggleSelf c)
          = (if selStateOf c = SelState.full then SelState.none else SelState.full)
      ∧ (c.isDirectory = true →
          ∀ q c', nodeAt (pos ++ q) (toggleAt pos t) = some c'
            → selStateOf c'
                = (if selStateOf c = SelState.full then SelState.none else SelState.full)) := by
  refine ⟨nodeAt_toggleAt pos t c hc, toggleSelf_selState c, ?_⟩
  intro hdir q c' h
  rw [nodeAt_append, nodeAt_toggleAt pos t c hc] at h
  dsimp only [Option.bind] at h
  have hwfc : WFB c = true := WFB_nodeAt pos t c hwf hc
  have hts : toggleSelf c = setSelectionRecursive (!c.selected) c := by
    cases c with
    | mk p n d s ps e cs =>
      dsimp only [DNode.isDirectory] at hdir
      subst hdir
      rw [toggleSelf]
      dsimp only [DNode.isDirectory, DNode.selected]
      rw [if_pos rfl]
  rw [hts] at h
  rw [← next_ite c]
  exact stamp_all (!c.selected) c hwfc q c' h

/-- Witness for C2: toggling the inner Partial-free directory of a small
concrete tree. -/
theorem toggle_next_state_witness :
    WFB (.mk "/r" "r" true false false false
        [.mk "/r/c" "c" true false false false
          [.mk "/r/c/d" "d" false false false false []]]) = true
      ∧ nodeAt [0]
          (.mk "/r" "r" true false false false
            [.mk "/r/c" "c" true false false false
              [.mk "/r/c/d" "d" false false false false []]])
        = some (.mk "/r/c" "c" true false false false
            [.mk "/r/c/d" "d" false false false false []])
      ∧ nodeAt [0]
          (toggleAt [0]
            (.mk "/r" "r" true false false false
              [.mk "/r/c" "c" true false false false
                [.mk "/r/c/d" "d" false false false false []]]))
        = some (toggleSelf
            (.mk "/r/c" "c" true false false false
              [.mk "/r/c/d" "d" false false false false []])) :=
  ⟨rfl, rfl,
   (toggle_next_state
     (.mk "/r" "r" true false false false
       [.mk "/r/c" "c" true false false false
         [.mk "/r/c/d" "d" false false false false []]])
     [0]
     (.mk "/r/c" "c" true false false false
       [.mk "/r/c/d" "d" false false false false []])
     rfl rfl).1⟩

end TreeView

namespace TreeView

/-- The stamp preserves shape well-formedness. -/
theorem WFB_stamp (b : Bool) (t : DNode) (hwf : WFB t = true) :
    WFB (setSelectionRecursive b t) = true := by
  induction t using DNode.recOnMem with
  | _ p n d s ps e cs ih =>
    rw [WFB] at hwf
    rcases Bool.and_eq_true_iff.mp hwf with ⟨hshape, hlist⟩
    have hmem := (WFBList_iff cs).mp hlist
    cases d with
    | false =>
      rw [stamp_file, WFB, Bool.and_eq_true]
      exact ⟨hshape, hlist⟩
    | true =>
      rw [stamp_dir, WFB, Bool.and_eq_true]
      constructor
      · rfl
      · rw [WFBList_iff]
        intro c' hc'
        rcases List.mem_map.mp hc' with ⟨c, hc, rfl⟩
        exact ih c hc (hmem c hc)

/-- Toggling a node preserves shape well-formedness. -/
theorem WFB_toggleSelf (t : DNode) (hwf : WFB t = true) :
    WFB (toggleSelf t) = true := by
  cases t with
  | mk p n d s ps e cs =>
    rw [toggleSelf]
    dsimp only [DNode.isDirectory, DNode.selected]
    cases d with
    | true =>
      rw [if_pos rfl]
      exact WFB_stamp _ _ hwf
    | false =>
      rw [if_neg (by simp)]
      rw [WFB] at hwf ⊢
      exact hwf

/-- A full toggle preserves shape well-formedness. -/
theorem WFB_toggleAt (pos : List Nat) (t : DNode) (hwf : WFB t = true) :
    WFB (toggleAt pos t) = true := by
  induction pos generalizing t with
  | nil => exact WFB_toggleSelf t hwf
  | cons i rest ih =>
    cases t with
    | mk p n d s ps e cs =>
      rw [toggleAt]
      cases hcs : cs[i]? with
      | none => exact hwf
      | some c =>
        dsimp only
        rw [WFB] at hwf
        rcases Bool.and_eq_true_iff.mp hwf with ⟨hshape, hlist⟩
        have hmem := (WFBList_iff cs).mp hlist
        have hci : c ∈ cs := List.getElem?_mem hcs
        rcases updateDir_shape p n d s ps e (cs.set i (toggleAt rest c)) with ⟨s', ps', heq⟩
        rw [heq, WFB, Bool.and_eq_true]
        constructor
        · cases d with
          | true => rfl
          | false =>
            have hnil : cs = [] := by
              cases cs with
              | nil => rfl
              | cons a l => simp at hshape
            subst hnil
            simp at hcs
        · rw [WFBList_iff]
          intro x hx
          rcases List.mem_or_eq_of_mem_set hx with hx' | rfl
          · exact hmem x hx'
          · exact ih c (hmem c hci)

/-- Frame: a toggle at `pos` leaves every node that is neither in the
toggled subtree nor a strict ancestor of it exactly as it was. -/
theorem toggleAt_frame (pos : List Nat) (t : DNode) :
    ∀ r, ¬ isAncestorOrSelf pos r → ¬ isAncestorOrSelf r pos
      → nodeAt r (toggleAt pos t) = nodeAt r t := by
  induction pos generalizing t with
  | nil => intro r h1 _; exact absurd ⟨r, rfl⟩ h1
  | cons i rest ih =>
    intro r h1 h2
    cases r with
    | nil => exact absurd ⟨i :: rest, rfl⟩ h2
    | cons j r2 =>
      cases t with
      | mk p n d s ps e cs =>
        rw [toggleAt]
        cases hcs : cs[i]? with
        | none => rfl
        | some c =>
          dsimp only
          rw [nodeAt, updateDir_children, nodeAt]
          dsimp only [DNode.children]
          by_cases hij : i = j
          · subst hij
            have hr1 : ¬ isAncestorOrSelf rest r2 := by
              rintro ⟨q, hq⟩
              exact h1 ⟨q, by rw [List.cons_append, hq]⟩
            have hr2 : ¬ isAncestorOrSelf r2 rest := by
              rintro ⟨q, hq⟩
              exact h2 ⟨q, by rw [List.cons_append, hq]⟩
            have hlen : i < cs.length := (List.getElem?_eq_some_iff.mp hcs).1
            rw [List.getElem?_set_self (by simpa using hlen), hcs]
            dsimp only
            exact ih c r2 hr1 hr2
          · rw [List.getElem?_set_ne hij]

end TreeView

namespace TreeView

/-- C3 (amended): toggling a non-Full directory sets the node and every
node of its subtree (its N descendants plus itself) to Full, and changes
no node outside the subtree other than the node's strict ancestors, whose
derived states are recomputed; toggling it again returns the node and its
whole subtree to None, again changing nothing else outside the ancestor
chain. -/
theorem toggle_directory_exact (t : DNode) (pos : List Nat) (c : DNode)
    (hwf : WFB t = true) (hc : nodeAt pos t = some c)
    (hdir : c.isDirectory = true) (hnf : selStateOf c ≠ SelState.full) :
    (∀ q c', nodeAt (pos ++ q) (toggleAt pos t) = some c'
        → selStateOf c' = SelState.full)
      ∧ (∀ r, ¬ isAncestorOrSelf pos r → ¬ isAncestorOrSelf r pos
          → nodeAt r (toggleAt pos t) = nodeAt r t)
      ∧ (∀ q c', nodeAt (pos ++ q) (toggleAt pos (toggleAt pos t)) = some c'
          → selStateOf c' = SelState.none)
      ∧ (∀ r, ¬ isAncestorOrSelf pos r → ¬ isAncestorOrSelf r pos
          → nodeAt r (toggleAt pos (toggleAt pos t)) = nodeAt r t) := by
  rcases toggle_next_state t pos c hwf hc with ⟨hnode, _, hsub⟩
  have hwf' : WFB (toggleAt pos t) = true := WFB_toggleAt pos t hwf
  have hts : toggleSelf c = setSelectionRecursive (!c.selected) c := by
    cases c with
    | mk p n d s ps e cs =>
      dsimp only [DNode.isDirectory] at hdir
      subst hdir
      rw [toggleSelf]
      dsimp only [DNode.isDirectory, DNode.selected]
      rw [if_pos rfl]
  have hdir' : (toggleSelf c).isDirectory = true := by
    rw [hts, stamp_isDirectory, hdir]
  have hfull' : selStateOf (toggleSelf c) = SelState.full := by
    rw [toggleSelf_selState, if_neg hnf]
  rcases toggle_next_state (toggleAt pos t) pos (toggleSelf c) hwf' hnode
    with ⟨_, _, hsub2⟩
  refine ⟨?_, toggleAt_frame pos t, ?_, ?_⟩
  · intro q c' h
    have := hsub hdir q c' h
    rw [if_neg hnf] at this
    exact this
  · intro q c' h
    have := hsub2 hdir' q c' h
    rw [if_pos hfull'] at this
    exact this
  · intro r h1 h2
    rw [toggleAt_frame pos (toggleAt pos t) r h1 h2, toggleAt_frame pos t r h1 h2]

/-- Witness for C3's amended theorem: the two-level tree with the inner
directory toggled. -/
theorem toggle_directory_exact_witness :
    WFB (.mk "/r" "r" true false false false
        [.mk "/r/c" "c" true false false false
          [.mk "/r/c/d" "d" false false false false []]]) = true
      ∧ (∀ q c', nodeAt ([0] ++ q)
            (toggleAt [0]
              (.mk "/r" "r" true false false false
                [.mk "/r/c" "c" true false false false
                  [.mk "/r/c/d" "d" false false false false []]])) = some c'
          → selStateOf c' = SelState.full) :=
  ⟨rfl,
   (toggle_directory_exact
     (.mk "/r" "r" true false false false
       [.mk "/r/c" "c" true false false false
         [.mk "/r/c/d" "d" false false false false []]])
     [0]
     (.mk "/r/c" "c" true false false false
       [.mk "/r/c/d" "d" false false false false []])
     rfl rfl rfl (by decide)).1⟩

/-- C3 counterexample: in the tree `root { c { d } }` with everything
None, toggling the directory `c` (N = 1 descendant) leaves 3 nodes Full,
not the claimed N + 1 = 2: the upward recomputation also sets the root —
which is neither the toggled node nor one of its descendants — to Full. -/
theorem toggle_full_count_cex :
    countFull (toggleAt [0]
        (.mk "/r" "r" true false false false
          [.mk "/r/c" "c" true false false false
            [.mk "/r/c/d" "d" false false false false []]])) = 3
      ∧ (nodeAt [] (toggleAt [0]
          (.mk "/r" "r" true false false false
            [.mk "/r/c" "c" true false false false
              [.mk "/r/c/d" "d" false false false false []]]))).map selStateOf
        = some SelState.full
      ∧ (3 : Nat) ≠ 1 + 1 :=
  ⟨rfl, rfl, by decide⟩

end TreeView

namespace TreeView

/-- The pair-folding walk splits into the tree fold and the collected
visit list. -/
theorem walk_foldl_pair (f : DNode → DNode) (qs : List (List Nat)) :
    ∀ (t : DNode) (v : List (List Nat)),
      qs.foldl (fun acc q => (updateAt f q acc.1, acc.2 ++ [q])) (t, v)
        = (qs.foldl (fun s q => updateAt f q s) t, v ++ qs) := by
  induction qs with
  | nil =>
    intro t v
    simp
  | cons q qs ih =>
    intro t v
    rw [List.foldl_cons, List.foldl_cons, ih]
    simp

/-- The code's walk in closed form: the tree fold over the full ancestor
chain, and a visit list that is exactly that chain. -/
theorem updateAncestorsWalk_eq (t : DNode) (pos : List Nat) :
    updateAncestorsWalk t pos
      = ((ancestorChain pos).foldl
          (fun s q => updateAt updateDirectorySelectionState q s) t,
         ancestorChain pos) := by
  rw [updateAncestorsWalk, walk_foldl_pair, List.nil_append]

/-- Folding updates that all happen inside child `i` acts inside that
child. -/
theorem foldl_updateAt_lift (g : DNode → DNode) (i : Nat) (qs : List (List Nat))
    (p n : String) (d s ps e : Bool) (cs : List DNode) (hi : i < cs.length) :
    ∀ c0, (qs.map (fun q => i :: q)).foldl (fun st q => updateAt g q st)
        (DNode.mk p n d s ps e (cs.set i c0))
      = DNode.mk p n d s ps e (cs.set i (qs.foldl (fun st q => updateAt g q st) c0)) := by
  induction qs with
  | nil => intro c0; rfl
  | cons q qs ih =>
    intro c0
    rw [List.map_cons, List.foldl_cons, List.foldl_cons]
    have hstep : updateAt g (i :: q) (DNode.mk p n d s ps e (cs.set i c0))
        = DNode.mk p n d s ps e (cs.set i (updateAt g q c0)) := by
      rw [updateAt, List.getElem?_set_self (by simpa using hi)]
      dsimp only
      rw [List.set_set]
    rw [hstep, ih]

/-- A toggle is the downward stamp followed by the fold of
`updateDirectorySelectionState` over the full ancestor chain, deepest
first. -/
theorem toggleAt_eq_stamp_then_walk (pos : List Nat) (t : DNode)
    (hv : (nodeAt pos t).isSome = true) :
    toggleAt pos t
      = (ancestorChain pos).foldl (fun s q => updateAt updateDirectorySelectionState q s)
          (stampAt pos t) := by
  induction pos generalizing t with
  | nil => rfl
  | cons i rest ih =>
    cases t with
    | mk p n d s ps e cs =>
      rw [nodeAt] at hv
      dsimp only [DNode.children] at hv
      cases hcs : cs[i]? with
      | none => rw [hcs] at hv; simp at hv
      | some c =>
        rw [hcs] at hv
        dsimp only at hv
        have hi : i < cs.length := (List.getElem?_eq_some_iff.mp hcs).1
        rw [toggleAt, hcs]
        dsimp only
        have hstamp : stampAt (i :: rest) (DNode.mk p n d s ps e cs)
            = DNode.mk p n d s ps e (cs.set i (stampAt rest c)) := by
          rw [stampAt, updateAt, hcs]
          rfl
        rw [hstamp,
          show ancestorChain (i :: rest)
              = (ancestorChain rest).map (fun q => i :: q) ++ [[]] from rfl,
          List.foldl_append,
          foldl_updateAt_lift updateDirectorySelectionState i (ancestorChain rest)
            p n d s ps e cs hi (stampAt rest c),
          ← ih c hv]
        rfl

/-- C4 (amended): after a toggle the upward walk recomputes each
ancestor's derived state from its direct children for every strict
ancestor up to the root, deepest first, with no early stop — the visit
list is the whole ancestor chain, and the toggle equals the downward
stamp followed by that walk. -/
theorem walk_visits_every_ancestor (pos : List Nat) (t : DNode)
    (hv : (nodeAt pos t).isSome = true) :
    (updateAncestorsWalk (stampAt pos t) pos).2 = ancestorChain pos
      ∧ toggleAt pos t = (updateAncestorsWalk (stampAt pos t) pos).1 := by
  rw [updateAncestorsWalk_eq]
  exact ⟨rfl, toggleAt_eq_stamp_then_walk pos t hv⟩

/-- Witness for C4's amended theorem on a concrete two-level tree. -/
theorem walk_visits_every_ancestor_witness :
    (nodeAt [0]
        (.mk "/r" "r" true false false false
          [.mk "/r/c" "c" true false false false []])).isSome = true
      ∧ (updateAncestorsWalk
          (stampAt [0]
            (.mk "/r" "r" true false false false
              [.mk "/r/c" "c" true false false false []]))
          [0]).2 = ancestorChain [0] :=
  ⟨rfl,
   (walk_visits_every_ancestor [0]
     (.mk "/r" "r" true false false false
       [.mk "/r/c" "c" true false false false []]) rfl).1⟩

/-- C4 counterexample: toggling the file `b` under directory `p` (three
children: `a` Full, `b` toggled None→Full, `c` None) leaves `p` Partial —
its recomputed state equals its previously recorded state, so by the
claim the walk must visit no ancestor above `p`.  The code's walk visits
the root anyway: its visit list is `[[0], []]`, while the walk the spec
describes stops at `[[0]]`. -/
theorem walk_early_stop_cex :
    (updateAncestorsWalk
        (stampAt [0, 1]
          (.mk "/r" "r" true false true true
            [.mk "/r/p" "p" true false true true
              [.mk "/r/p/a" "a" false true false false [],
               .mk "/r/p/b" "b" false false false false [],
               .mk "/r/p/c" "c" false false false false []]]))
        [0, 1]).2 = [[0], []]
      ∧ (updateAncestorsSpecWalk
          (stampAt [0, 1]
            (.mk "/r" "r" true false true true
              [.mk "/r/p" "p" true false true true
                [.mk "/r/p/a" "a" false true false false [],
                 .mk "/r/p/b" "b" false false false false [],
                 .mk "/r/p/c" "c" false false false false []]]))
          [0, 1]).2 = [[0]]
      ∧ (nodeAt [0]
          (updateAt updateDirectorySelectionState [0]
            (stampAt [0, 1]
              (.mk "/r" "r" true false true true
                [.mk "/r/p" "p" true false true true
                  [.mk "/r/p/a" "a" false true false false [],
                   .mk "/r/p/b" "b" false false false false [],
                   .mk "/r/p/c" "c" false false false false []]])))).map selStateOf
        = (nodeAt [0]
            (stampAt [0, 1]
              (.mk "/r" "r" true false true true
                [.mk "/r/p" "p" true false true true
                  [.mk "/r/p/a" "a" false true false false [],
                   .mk "/r/p/b" "b" false false false false [],
                   .mk "/r/p/c" "c" false false false false []]]))).map selStateOf
      ∧ ([[0], []] : List (List Nat)) ≠ [[0]] :=
  ⟨rfl, rfl, rfl, by decide⟩

end TreeView
